import Mathlib

/-!
Verification of the electron-cloud sampling repository.

The JavaScript source is shallowly embedded: quantum numbers are natural
numbers (magnetic numbers are integers), screening arithmetic is exact
rational arithmetic, and the floating-point wavefunction arithmetic is
embedded over the real numbers.  Random draws of the Metropolis-Hastings
samplers are modelled as an explicit stream of real numbers indexed by the
number of draws consumed so far, which reproduces the short-circuit
behaviour of the acceptance tests (an unconditional acceptance does not
consume a draw).
-/

/-! ## Electron-configuration builder (src/atom-data.js) -/

/-- A subshell row of the filling table in getElectronConfiguration:
principal number n, angular number l, electron capacity. -/
structure Subshell where
  n : ℕ
  l : ℕ
  cap : ℕ
deriving DecidableEq

/-- The subshell filling table of src/atom-data.js lines 18-26:
1s, 2s, 2p, 3s, 3p, 4s, 3d (total capacity 30). -/
def subshells : List Subshell :=
  [⟨1, 0, 2⟩, ⟨2, 0, 2⟩, ⟨2, 1, 6⟩, ⟨3, 0, 2⟩, ⟨3, 1, 6⟩, ⟨4, 0, 2⟩, ⟨3, 2, 10⟩]

/-- The m-value display list of src/atom-data.js lines 34-45: for l = 1 the
hand-picked order [0, 1, -1]; for every other l the ascending order
-l, ..., l produced by the for-loop. -/
def mValues (l : ℕ) : List ℤ :=
  if l = 1 then [0, 1, -1]
  else (List.range (2 * l + 1)).map (fun i : ℕ => (i : ℤ) - (l : ℤ))

/-- The spatial-orbital m assignment of src/atom-data.js lines 47-51: the
i-th electron of a subshell receives mValues[i % (2l+1)]. -/
def spatialMs (l count : ℕ) : List ℤ :=
  (List.range count).map (fun i : ℕ => (mValues l).getD (i % (2 * l + 1)) 0)

/-- The subshell filling loop of src/atom-data.js lines 28-56: walk the
table, stop when no electrons are left, give each subshell
min(electronsLeft, cap) electrons and tag them with their m values. -/
def fillFrom : ℕ → List Subshell → List (ℕ × ℕ × ℤ)
  | _, [] => []
  | e, s :: rest =>
    if e = 0 then []
    else ((spatialMs s.l (min e s.cap)).map fun mv => (s.n, s.l, mv))
      ++ fillFrom (e - min e s.cap) rest

/-- The (n, l, m) part of getElectronConfiguration(Z). -/
def orbitalNLM (Z : ℕ) : List (ℕ × ℕ × ℤ) := fillFrom Z subshells

/-- The screening contribution of one other electron in src/atom-data.js
lines 76-89, keyed on the principal numbers of the target and the other
electron: higher groups 0; same group 0.35 (0.30 when the target is in
n = 1); the n-1 group 0.85; lower groups 1.00. -/
def shieldContrib (orbN otherN : ℕ) : ℚ :=
  if otherN > orbN then 0
  else if otherN = orbN then (if orbN = 1 then 0.30 else 0.35)
  else if otherN = orbN - 1 then 0.85
  else 1.00

/-- The screening constant S of electron i in src/atom-data.js lines 61-90:
sum of shieldContrib over every other index of the configuration, reading
principal numbers from the list ns. -/
def screeningS (ns : List ℕ) (i : ℕ) : ℚ :=
  (((List.range ns.length).filter (fun j => j ≠ i)).map
    (fun j => shieldContrib (ns.getD i 0) (ns.getD j 0))).sum

/-- One electron entry of the configuration: quantum numbers and the
attached effective charge. -/
structure Orbital where
  n : ℕ
  l : ℕ
  m : ℤ
  Zeff : ℚ
deriving DecidableEq

/-- getElectronConfiguration of src/atom-data.js lines 12-96: build the
(n, l, m) list, then attach Zeff = max(Z - S, 0.1) to each electron. -/
def getElectronConfiguration (Z : ℕ) : List Orbital :=
  let nlm := orbitalNLM Z
  let ns := nlm.map (fun e => e.1)
  (List.range nlm.length).map (fun i =>
    let e := nlm.getD i (1, 0, 0)
    { n := e.1, l := e.2.1, m := e.2.2,
      Zeff := max ((Z : ℚ) - screeningS ns i) 0.1 })

/-- The m values of all electrons of subshell (n, l) in a configuration
list, in emission order. -/
def msOf (xs : List (ℕ × ℕ × ℤ)) (n l : ℕ) : List ℤ :=
  (xs.filter (fun e => e.1 == n && e.2.1 == l)).map (fun e => e.2.2)

/-- Total capacity of the first i subshell rows. -/
def capsBefore (subs : List Subshell) (i : ℕ) : ℕ :=
  ((subs.take i).map (fun s => s.cap)).sum

/-! ## Special functions (src/unnamed/part_000) -/

/-- factorial of src/unnamed/part_000 lines 3-13.  The memo cache is an
implementation detail; on a natural-number argument the function computes
k!.  (A negative JS argument returns 1; every call site reaches factorial
through a truncated natural subtraction, which returns the same 1 = 0!.) -/
def factorial (k : ℕ) : ℕ := Nat.factorial k

/-- Generalized Laguerre polynomial of src/unnamed/part_000 lines 17-30,
by the three-term recurrence of the source loop. -/
noncomputable def laguerre : ℕ → ℝ → ℝ → ℝ
  | 0, _, _ => 1
  | 1, alpha, x => 1 + alpha - x
  | k + 2, alpha, x =>
      ((2 * ((k : ℝ) + 1) + 1 + alpha - x) * laguerre (k + 1) alpha x
        - (((k : ℝ) + 1) + alpha) * laguerre k alpha x) / ((k : ℝ) + 2)

/-- The P_m^m seed loop of src/unnamed/part_000 lines 41-49: after i
steps the accumulator is the product of -(2i-1)·somx2 factors. -/
noncomputable def pmmRec : ℕ → ℝ → ℝ
  | 0, _ => 1
  | i + 1, somx2 => pmmRec i somx2 * (-(2 * (i : ℝ) + 1) * somx2)

/-- The climbing loop of src/unnamed/part_000 lines 60-65: from the pair
(P_{absM+k}, P_{absM+1+k}) one more step of the three-term recurrence at
level ll = absM + 2 + k. -/
noncomputable def legClimb (absM : ℕ) (x p0 p1 : ℝ) : ℕ → ℝ × ℝ
  | 0 => (p0, p1)
  | k + 1 =>
      let prev := legClimb absM x p0 p1 k
      (prev.2,
        (x * (2 * ((absM : ℝ) + 2 + (k : ℝ)) - 1) * prev.2
            - (((absM : ℝ) + 2 + (k : ℝ)) + (absM : ℝ) - 1) * prev.1)
          / (((absM : ℝ) + 2 + (k : ℝ)) - (absM : ℝ)))

/-- Associated Legendre polynomial of src/unnamed/part_000 lines 35-68. -/
noncomputable def legendre (l : ℕ) (m : ℤ) (x : ℝ) : ℝ :=
  let absM := m.natAbs
  if absM > l then 0
  else
    let somx2 := Real.sqrt ((1 - x) * (1 + x))
    let pmm := pmmRec absM somx2
    if l = absM then pmm
    else
      let pmmp1 := x * (2 * (absM : ℝ) + 1) * pmm
      if l = absM + 1 then pmmp1
      else (legClimb absM x pmm pmmp1 (l - absM - 1)).2

/-! ## Wavefunction evaluator (src/unnamed/part_000 lines 74-161) -/

/-- getProbabilityDensity of src/unnamed/part_000 lines 74-108: squared
magnitude of the complex-eigenstate wavefunction. -/
noncomputable def getProbabilityDensity (x y z : ℝ) (n l : ℕ) (m : ℤ)
    (Zeff : ℝ) : ℝ :=
  let r := Real.sqrt (x * x + y * y + z * z)
  if r < 1e-6 then 0
  else
    let theta := Real.arccos (z / r)
    let rho := 2 * Zeff * r / (n : ℝ)
    let prefactor := Real.sqrt ((2 * Zeff / (n : ℝ)) ^ 3
      * (factorial (n - l - 1) : ℝ) / (2 * (n : ℝ) * (factorial (n + l) : ℝ)))
    let L := laguerre (n - l - 1) (2 * (l : ℝ) + 1) rho
    let R := prefactor * Real.exp (-rho / 2) * rho ^ l * L
    let absM := m.natAbs
    let normY := Real.sqrt ((2 * (l : ℝ) + 1) / (4 * Real.pi)
      * ((factorial (l - absM) : ℝ) / (factorial (l + absM) : ℝ)))
    let P := legendre l (absM : ℤ) (Real.cos theta)
    let Y_mag := normY * P
    let psi_mag := R * Y_mag
    psi_mag * psi_mag

/-- getRealWavefunction of src/unnamed/part_000 lines 112-155: signed
real-orbital amplitude, with closed-form angular factors for s, p, d and
the documented s-like fallback for l > 2. -/
noncomputable def getRealWavefunction (x y z : ℝ) (n l : ℕ) (m : ℤ)
    (Zeff : ℝ) : ℝ :=
  let r := Real.sqrt (x * x + y * y + z * z)
  if r < 1e-6 then 0
  else
    let rho := 2 * Zeff * r / (n : ℝ)
    let prefactor := Real.sqrt ((2 * Zeff / (n : ℝ)) ^ 3
      * (factorial (n - l - 1) : ℝ) / (2 * (n : ℝ) * (factorial (n + l) : ℝ)))
    let L := laguerre (n - l - 1) (2 * (l : ℝ) + 1) rho
    let R := prefactor * Real.exp (-rho / 2) * rho ^ l * L
    let dx := x / r
    let dy := y / r
    let dz := z / r
    let Y : ℝ :=
      if l = 0 then 1 / Real.sqrt (4 * Real.pi)
      else if l = 1 then
        let N := Real.sqrt (3 / (4 * Real.pi))
        (if m = 0 then N * dz
         else if m = 1 then N * dx
         else if m = -1 then N * dy
         else 0)
      else if l = 2 then
        let N := Real.sqrt (5 / (16 * Real.pi))
        (if m = 0 then N * (3 * dz * dz - 1)
         else if m = 1 then Real.sqrt (15 / (4 * Real.pi)) * dx * dz
         else if m = -1 then Real.sqrt (15 / (4 * Real.pi)) * dy * dz
         else if m = 2 then Real.sqrt (15 / (16 * Real.pi)) * (dx * dx - dy * dy)
         else if m = -2 then Real.sqrt (15 / (4 * Real.pi)) * dx * dy
         else 0)
      else 1 / Real.sqrt (4 * Real.pi)
    R * Y

/-- getRealProbabilityDensity of src/unnamed/part_000 lines 158-161:
square of the real amplitude. -/
noncomputable def getRealProbabilityDensity (x y z : ℝ) (n l : ℕ) (m : ℤ)
    (Zeff : ℝ) : ℝ :=
  let psi := getRealWavefunction x y z n l m Zeff
  psi * psi

/-! ## Step scales (src/utils.js lines 9 and 108) -/

/-- The proposal step scale of generateOrbitalPoints (src/utils.js line 9):
stepSize = (n * 1.5) / Zeff. -/
noncomputable def stepScaleU (n : ℕ) (Zeff : ℝ) : ℝ := ((n : ℝ) * 1.5) / Zeff

/-- The proposal step scale of sampleOrbitals (src/utils.js line 108):
stepSize = (orb.n * 1.5) / (orb.Zeff || 1), the fallback replacing a zero
(or absent) effective charge by 1. -/
noncomputable def stepScaleSample (n : ℕ) (Zeff : ℝ) : ℝ :=
  ((n : ℝ) * 1.5) / (if Zeff = 0 then 1 else Zeff)

/-! ## Metropolis-Hastings samplers (src/utils.js and src/script.js) -/

/-- Walker state of one sampling run: position, current density value, and
the number of random draws consumed so far (the index into the stream of
Math.random() results). -/
structure MHState where
  x : ℝ
  y : ℝ
  z : ℝ
  c : ℝ
  k : ℕ

/-- Proposed x coordinate: nextX = x + (Math.random() - 0.5) * stepSize. -/
noncomputable def propX (σ : ℝ) (u : ℕ → ℝ) (st : MHState) : ℝ :=
  st.x + (u st.k - 0.5) * σ

/-- Proposed y coordinate, drawn from the next stream entry. -/
noncomputable def propY (σ : ℝ) (u : ℕ → ℝ) (st : MHState) : ℝ :=
  st.y + (u (st.k + 1) - 0.5) * σ

/-- Proposed z coordinate, drawn from the second-next stream entry. -/
noncomputable def propZ (σ : ℝ) (u : ℕ → ℝ) (st : MHState) : ℝ :=
  st.z + (u (st.k + 2) - 0.5) * σ

/-- Position triple of a walker state. -/
def posOf (st : MHState) : ℝ × ℝ × ℝ := (st.x, st.y, st.z)

/-- Proposal triple of one iteration. -/
noncomputable def proposalOf (σ : ℝ) (u : ℕ → ℝ) (st : MHState) : ℝ × ℝ × ℝ :=
  (propX σ u st, propY σ u st, propZ σ u st)

/-- One burn-in iteration of generateOrbitalPoints (src/utils.js lines
11-25): accept when nextProb > currentProb, otherwise draw against
ratio^sharpness, where a zero currentProb makes the ratio 1.  The fourth
draw is consumed only when the first test fails (JS short-circuit of
the disjunction). -/
noncomputable def mhBurnStep (f : ℝ → ℝ → ℝ → ℝ) (σ s : ℝ) (u : ℕ → ℝ)
    (st : MHState) : MHState :=
  let d := f (propX σ u st) (propY σ u st) (propZ σ u st)
  let ratio := if st.c = 0 then 1 else d / st.c
  let acceptance := ratio ^ s
  if d > st.c then ⟨propX σ u st, propY σ u st, propZ σ u st, d, st.k + 3⟩
  else if u (st.k + 3) < acceptance then
    ⟨propX σ u st, propY σ u st, propZ σ u st, d, st.k + 4⟩
  else ⟨st.x, st.y, st.z, st.c, st.k + 4⟩

/-- One sampling iteration of generateOrbitalPoints (src/utils.js lines
27-42): accept when ratio >= 1, otherwise draw against ratio^sharpness. -/
noncomputable def mhSampleStep (f : ℝ → ℝ → ℝ → ℝ) (σ s : ℝ) (u : ℕ → ℝ)
    (st : MHState) : MHState :=
  let d := f (propX σ u st) (propY σ u st) (propZ σ u st)
  let ratio := if st.c = 0 then 1 else d / st.c
  let acceptance := ratio ^ s
  if ratio ≥ 1 then ⟨propX σ u st, propY σ u st, propZ σ u st, d, st.k + 3⟩
  else if u (st.k + 3) < acceptance then
    ⟨propX σ u st, propY σ u st, propZ σ u st, d, st.k + 4⟩
  else ⟨st.x, st.y, st.z, st.c, st.k + 4⟩

/-- One burn-in iteration of generatePoints (src/script.js lines 128-143):
accept when nextProb > currentProb, otherwise draw against the raw ratio
nextProb / currentProb with no zero-density guard.  (When the second test
is reached nextProb ≤ currentProb, so for currentProb = 0 and a
nonnegative draw the JS NaN / -Infinity comparison and Lean's total
division d / 0 = 0 reject alike; a positive nextProb is accepted by the
first test before the quotient is read.) -/
noncomputable def scriptBurnStep (f : ℝ → ℝ → ℝ → ℝ) (σ : ℝ) (u : ℕ → ℝ)
    (st : MHState) : MHState :=
  let d := f (propX σ u st) (propY σ u st) (propZ σ u st)
  if d > st.c then ⟨propX σ u st, propY σ u st, propZ σ u st, d, st.k + 3⟩
  else if u (st.k + 3) < d / st.c then
    ⟨propX σ u st, propY σ u st, propZ σ u st, d, st.k + 4⟩
  else ⟨st.x, st.y, st.z, st.c, st.k + 4⟩

/-- One sampling iteration of generatePoints (src/script.js lines
150-181): accept unconditionally when currentProb is 0, otherwise draw
against the raw ratio. -/
noncomputable def scriptSampleStep (f : ℝ → ℝ → ℝ → ℝ) (σ : ℝ) (u : ℕ → ℝ)
    (st : MHState) : MHState :=
  let d := f (propX σ u st) (propY σ u st) (propZ σ u st)
  if st.c = 0 then ⟨propX σ u st, propY σ u st, propZ σ u st, d, st.k + 3⟩
  else if u (st.k + 3) < d / st.c then
    ⟨propX σ u st, propY σ u st, propZ σ u st, d, st.k + 4⟩
  else ⟨st.x, st.y, st.z, st.c, st.k + 4⟩

/-- The sampling loop of generateOrbitalPoints (src/utils.js lines
27-43): after every step, accepted or not, push the walker's current
x, y, z onto the output. -/
noncomputable def sampleLoop (f : ℝ → ℝ → ℝ → ℝ) (σ s : ℝ) (u : ℕ → ℝ) :
    ℕ → MHState → List ℝ
  | 0, _ => []
  | count + 1, st =>
    let st2 := mhSampleStep f σ s u st
    st2.x :: st2.y :: st2.z :: sampleLoop f σ s u count st2

/-- generateOrbitalPoints of src/utils.js lines 5-44: start at (1,1,1),
burn in 500 iterations, then emit count positions. -/
noncomputable def generateOrbitalPoints (n l : ℕ) (m : ℤ) (Zeff : ℝ)
    (count : ℕ) (sharpness : ℝ) (u : ℕ → ℝ) : List ℝ :=
  let f := fun a b c => getRealProbabilityDensity a b c n l m Zeff
  let st0 : MHState := ⟨1, 1, 1, f 1 1 1, 0⟩
  sampleLoop f (stepScaleU n Zeff) sharpness u count
    ((mhBurnStep f (stepScaleU n Zeff) sharpness u)^[500] st0)

/-- The burn-in acceptance rule of generateOrbitalPoints (src/utils.js
lines 19-24) as a predicate on the current density, the candidate
density, the acceptance draw and the sharpness. -/
def acceptBurnU (c d u s : ℝ) : Prop :=
  d > c ∨ u < (if c = 0 then 1 else d / c) ^ s

/-- The sampling-loop acceptance rule of generateOrbitalPoints
(src/utils.js lines 35-40). -/
def acceptSampleU (c d u s : ℝ) : Prop :=
  (if c = 0 then 1 else d / c) ≥ 1 ∨ u < (if c = 0 then 1 else d / c) ^ s

/-- The identically-zero density, a legal density function for the
samplers. -/
noncomputable def zeroDensity : ℝ → ℝ → ℝ → ℝ := fun _ _ _ => 0

/-- A draw stream whose first three entries are 0.75 (a real move) and
whose later entries are 0.5. -/
noncomputable def cexStream : ℕ → ℝ := fun j => if j < 3 then 0.75 else 0.5

/-- The constant draw stream 0.5: every proposal jitter is exactly 0, so
every proposal coincides with the current position. -/
noncomputable def halfStream : ℕ → ℝ := fun _ => 0.5

open Classical in
theorem mhBurnStep_pos (f : ℝ → ℝ → ℝ → ℝ) (σ s : ℝ) (u : ℕ → ℝ)
    (st : MHState) :
    posOf (mhBurnStep f σ s u st)
      = if acceptBurnU st.c (f (propX σ u st) (propY σ u st) (propZ σ u st))
            (u (st.k + 3)) s
        then proposalOf σ u st else posOf st := by
  simp only [mhBurnStep, acceptBurnU, posOf, proposalOf]
  by_cases h1 : f (propX σ u st) (propY σ u st) (propZ σ u st) > st.c
  · rw [if_pos h1, if_pos (Or.inl h1)]
  · rw [if_neg h1]
    by_cases h2 : u (st.k + 3)
        < (if st.c = 0 then 1
           else f (propX σ u st) (propY σ u st) (propZ σ u st) / st.c) ^ s
    · rw [if_pos h2, if_pos (Or.inr h2)]
    · rw [if_neg h2, if_neg (by rintro (h | h); exact h1 h; exact h2 h)]

open Classical in
theorem mhSampleStep_pos (f : ℝ → ℝ → ℝ → ℝ) (σ s : ℝ) (u : ℕ → ℝ)
    (st : MHState) :
    posOf (mhSampleStep f σ s u st)
      = if acceptSampleU st.c (f (propX σ u st) (propY σ u st) (propZ σ u st))
            (u (st.k + 3)) s
        then proposalOf σ u st else posOf st := by
  simp only [mhSampleStep, acceptSampleU, posOf, proposalOf]
  by_cases h1 : (if st.c = 0 then (1 : ℝ)
      else f (propX σ u st) (propY σ u st) (propZ σ u st) / st.c) ≥ 1
  · rw [if_pos h1, if_pos (Or.inl h1)]
  · rw [if_neg h1]
    by_cases h2 : u (st.k + 3)
        < (if st.c = 0 then 1
           else f (propX σ u st) (propY σ u st) (propZ σ u st) / st.c) ^ s
    · rw [if_pos h2, if_pos (Or.inr h2)]
    · rw [if_neg h2, if_neg (by rintro (h | h); exact h1 h; exact h2 h)]

/-! ## Sampler theorems -/

theorem sampleLoop_length (f : ℝ → ℝ → ℝ → ℝ) (σ s : ℝ) (u : ℕ → ℝ) :
    ∀ (count : ℕ) (st : MHState),
      (sampleLoop f σ s u count st).length = 3 * count := by
  intro count
  induction count with
  | zero => intro st; rfl
  | succ c ih =>
    intro st
    simp only [sampleLoop, List.length_cons, ih]
    omega

/-- C7: generateOrbitalPoints returns exactly count positions — 3·count
coordinates — whatever the random stream does, because the sampling loop
pushes the walker's position once per iteration whether or not the
proposal was accepted. -/
theorem c7_emission_count (n l : ℕ) (m : ℤ) (Zeff : ℝ) (count : ℕ)
    (sharpness : ℝ) (u : ℕ → ℝ) :
    (generateOrbitalPoints n l m Zeff count sharpness u).length = 3 * count := by
  simp only [generateOrbitalPoints]
  exact sampleLoop_length _ _ _ _ count _

/-- C10: whenever the current density is positive (and the draw lies in
[0,1)), the burn-in rule (accept iff d > c or u < (d/c)^s) and the
sampling-loop rule (accept iff d/c ≥ 1 or u < (d/c)^s) of
generateOrbitalPoints make the same decision. -/
theorem c10_accept_rules_equiv (c d u s : ℝ) (hc : 0 < c) (hd : 0 ≤ d)
    (hu0 : 0 ≤ u) (hu1 : u < 1) :
    acceptBurnU c d u s ↔ acceptSampleU c d u s := by
  have hc0 : c ≠ 0 := ne_of_gt hc
  rw [acceptBurnU, acceptSampleU, if_neg hc0]
  constructor
  · rintro (h | h)
    · exact Or.inl (le_of_lt ((one_lt_div hc).mpr h))
    · exact Or.inr h
  · rintro (h | h)
    · rcases lt_or_eq_of_le ((one_le_div hc).mp h) with hlt | heq
      · exact Or.inl hlt
      · refine Or.inr ?_
        rw [← heq, div_self hc0, Real.one_rpow]
        exact hu1
    · exact Or.inr h

/-- C10, witnessed at c = 1, d = 2, u = 1/2, s = 2. -/
theorem c10_accept_rules_equiv_witness :
    acceptBurnU 1 2 (1 / 2) 2 ↔ acceptSampleU 1 2 (1 / 2) 2 :=
  c10_accept_rules_equiv 1 2 (1 / 2) 2 (by norm_num) (by norm_num)
    (by norm_num) (by norm_num)

/-- C3 counterexample: in the burn-in loop of script.js generatePoints, a
walker with current density exactly 0 whose candidate density is also 0
keeps its old state — the proposal (which here moves x to 1.25 ≠ 1) is
rejected, refuting the claim that every sampler loop always accepts when
the current density is 0. -/
theorem c3_script_burn_reject_cex :
    scriptBurnStep zeroDensity 1 cexStream ⟨1, 1, 1, 0, 0⟩ = ⟨1, 1, 1, 0, 4⟩
    ∧ propX 1 cexStream ⟨1, 1, 1, 0, 0⟩ ≠ 1 := by
  constructor
  · simp only [scriptBurnStep, zeroDensity]
    rw [if_neg (lt_irrefl (0 : ℝ))]
    rw [if_neg (show ¬(cexStream (0 + 3) < 0 / (0 : ℝ)) by
      norm_num [cexStream])]
  · norm_num [propX, cexStream]

/-- C3 amended: when the current density is exactly 0 and the draw lies
in [0,1), the proposal is accepted in both loops of generateOrbitalPoints
(src/utils.js) and in the sampling loop of generatePoints
(src/script.js); in the burn-in loop of generatePoints, which lacks the
zero-density guard, it is accepted only when the candidate density is
positive. -/
theorem c3_zero_density_accept_amended (f : ℝ → ℝ → ℝ → ℝ) (σ s : ℝ)
    (u : ℕ → ℝ) (st : MHState) (hc : st.c = 0)
    (h0 : 0 ≤ u (st.k + 3)) (h1 : u (st.k + 3) < 1) :
    posOf (mhBurnStep f σ s u st) = proposalOf σ u st
    ∧ posOf (mhSampleStep f σ s u st) = proposalOf σ u st
    ∧ posOf (scriptSampleStep f σ u st) = proposalOf σ u st
    ∧ (0 < f (propX σ u st) (propY σ u st) (propZ σ u st) →
        posOf (scriptBurnStep f σ u st) = proposalOf σ u st) := by
  refine ⟨?_, ?_, ?_, ?_⟩
  · simp only [mhBurnStep, hc, if_true]
    by_cases hd : f (propX σ u st) (propY σ u st) (propZ σ u st) > 0
    · rw [if_pos hd]
      rfl
    · rw [if_neg hd, if_pos (show u (st.k + 3) < (1 : ℝ) ^ s by
        rw [Real.one_rpow]; exact h1)]
      rfl
  · simp only [mhSampleStep, hc, if_true]
    rw [if_pos (le_refl (1 : ℝ))]
    rfl
  · simp only [scriptSampleStep, hc, if_true]
    rfl
  · intro hd
    simp only [scriptBurnStep, hc]
    rw [if_pos hd]
    rfl

/-- C3 amended, witnessed with the zero density, σ = 1, sharpness 2, the
constant-half stream and the start state (1,1,1) with density 0. -/
theorem c3_zero_density_accept_amended_witness :
    posOf (mhBurnStep zeroDensity 1 2 halfStream ⟨1, 1, 1, 0, 0⟩)
        = proposalOf 1 halfStream ⟨1, 1, 1, 0, 0⟩
    ∧ posOf (mhSampleStep zeroDensity 1 2 halfStream ⟨1, 1, 1, 0, 0⟩)
        = proposalOf 1 halfStream ⟨1, 1, 1, 0, 0⟩
    ∧ posOf (scriptSampleStep zeroDensity 1 halfStream ⟨1, 1, 1, 0, 0⟩)
        = proposalOf 1 halfStream ⟨1, 1, 1, 0, 0⟩
    ∧ (0 < zeroDensity (propX 1 halfStream ⟨1, 1, 1, 0, 0⟩)
          (propY 1 halfStream ⟨1, 1, 1, 0, 0⟩)
          (propZ 1 halfStream ⟨1, 1, 1, 0, 0⟩) →
        posOf (scriptBurnStep zeroDensity 1 halfStream ⟨1, 1, 1, 0, 0⟩)
          = proposalOf 1 halfStream ⟨1, 1, 1, 0, 0⟩) :=
  c3_zero_density_accept_amended zeroDensity 1 2 halfStream ⟨1, 1, 1, 0, 0⟩
    rfl (by norm_num [halfStream]) (by norm_num [halfStream])

theorem mhBurnStep_half_fix (f : ℝ → ℝ → ℝ → ℝ) (σ s : ℝ) (k : ℕ) (c : ℝ)
    (hc : c = f 1 1 1) :
    mhBurnStep f σ s halfStream ⟨1, 1, 1, c, k⟩ = ⟨1, 1, 1, c, k + 4⟩ := by
  have hx : propX σ halfStream ⟨1, 1, 1, c, k⟩ = 1 := by
    simp [propX, halfStream]
  have hy : propY σ halfStream ⟨1, 1, 1, c, k⟩ = 1 := by
    simp [propY, halfStream]
  have hz : propZ σ halfStream ⟨1, 1, 1, c, k⟩ = 1 := by
    simp [propZ, halfStream]
  simp only [mhBurnStep, hx, hy, hz, ← hc]
  rw [if_neg (lt_irrefl c), ite_self]

theorem mhBurnStep_half_iter (f : ℝ → ℝ → ℝ → ℝ) (σ s : ℝ) (c : ℝ)
    (hc : c = f 1 1 1) : ∀ (M k : ℕ),
    (mhBurnStep f σ s halfStream)^[M] ⟨1, 1, 1, c, k⟩
      = ⟨1, 1, 1, c, k + 4 * M⟩ := by
  intro M
  induction M with
  | zero => intro k; simp
  | succ M ih =>
    intro k
    rw [Function.iterate_succ_apply, mhBurnStep_half_fix f σ s k c hc, ih]
    congr 1
    omega

theorem mhSampleStep_half_fix (f : ℝ → ℝ → ℝ → ℝ) (σ s : ℝ) (k : ℕ) (c : ℝ)
    (hc : c = f 1 1 1) :
    mhSampleStep f σ s halfStream ⟨1, 1, 1, c, k⟩ = ⟨1, 1, 1, c, k + 3⟩ := by
  have hx : propX σ halfStream ⟨1, 1, 1, c, k⟩ = 1 := by
    simp [propX, halfStream]
  have hy : propY σ halfStream ⟨1, 1, 1, c, k⟩ = 1 := by
    simp [propY, halfStream]
  have hz : propZ σ halfStream ⟨1, 1, 1, c, k⟩ = 1 := by
    simp [propZ, halfStream]
  simp only [mhSampleStep, hx, hy, hz, ← hc]
  rw [if_pos (show (if c = 0 then (1 : ℝ) else c / c) ≥ 1 by
    by_cases hc0 : c = 0
    · rw [if_pos hc0]
    · rw [if_neg hc0, div_self hc0])]

theorem generateOrbitalPoints_half :
    generateOrbitalPoints 1 0 0 1 1 2 halfStream = [1, 1, 1] := by
  simp only [generateOrbitalPoints]
  rw [mhBurnStep_half_iter _ _ _ _ rfl 500 0]
  rw [show (1 : ℕ) = 0 + 1 from rfl]
  simp only [sampleLoop]
  rw [mhSampleStep_half_fix _ _ _ _ _ rfl]

/-- C9 counterexample: for the constant-half stream every proposal
coincides with the walker's current position, so after the full 500-step
burn-in the sampler emits exactly the pre-burn-in start (1,1,1) — the
claimed guarantee fails for this stream even though count = 1 > 0 and
the burn-in count is the fixed positive 500. -/
theorem c9_start_reemitted_cex :
    generateOrbitalPoints 1 0 0 1 1 2 halfStream = [1, 1, 1]
    ∧ (1 : ℕ) > 0 :=
  ⟨generateOrbitalPoints_half, by norm_num⟩

/-- C9 amended: the no-reemission property is only probabilistic — there
exists a random stream (all draws 0.5, making every jitter zero) for
which generateOrbitalPoints with count = 1 emits exactly the pre-burn-in
start position (1,1,1). -/
theorem c9_reemission_possible_amended :
    ∃ u : ℕ → ℝ, generateOrbitalPoints 1 0 0 1 1 2 u = [1, 1, 1] :=
  ⟨halfStream, generateOrbitalPoints_half⟩

/-! ## Agreement of the two densities on s states -/

theorem legendre_l0 (w : ℝ) : legendre 0 0 w = 1 := by
  simp [legendre, pmmRec]

/-- C1: for every point and every s state (l = 0, m = 0) with n ≥ 1 and
Zeff > 0, the complex-orbital density and the squared real-orbital
amplitude coincide. -/
theorem c1_s_density_agree (x y z : ℝ) (n : ℕ) (Zeff : ℝ)
    (hn : 1 ≤ n) (hZ : 0 < Zeff) :
    getProbabilityDensity x y z n 0 0 Zeff
      = getRealProbabilityDensity x y z n 0 0 Zeff := by
  simp only [getProbabilityDensity, getRealProbabilityDensity,
    getRealWavefunction]
  by_cases hr : Real.sqrt (x * x + y * y + z * z) < 1e-6
  · simp [hr]
  · simp only [if_neg hr, Int.natAbs_zero, Nat.cast_zero, Int.cast_zero,
      Nat.sub_zero, Nat.add_zero, legendre_l0, factorial, Nat.factorial_zero,
      Nat.cast_one, if_pos]
    have hY : Real.sqrt ((2 * (0 : ℝ) + 1) / (4 * Real.pi) * ((1 : ℝ) / 1))
        = 1 / Real.sqrt (4 * Real.pi) := by
      have h1 : (2 * (0 : ℝ) + 1) / (4 * Real.pi) * ((1 : ℝ) / 1)
          = (4 * Real.pi)⁻¹ := by
        norm_num
      rw [h1, Real.sqrt_inv, one_div]
    rw [hY]
    ring

/-- C1, witnessed at the point (1,1,1) with n = 1, Zeff = 1. -/
theorem c1_s_density_agree_witness :
    getProbabilityDensity 1 1 1 1 0 0 1
      = getRealProbabilityDensity 1 1 1 1 0 0 1 :=
  c1_s_density_agree 1 1 1 1 1 (by norm_num) (by norm_num)

/-! ## First concrete facts -/

/-- C8: electronConfiguration(6) (carbon) yields exactly six electrons,
two in (1,0), two in (2,0) and two in (2,1) with distinct m values. -/
theorem c8_carbon_config :
    (getElectronConfiguration 6).map (fun o => (o.n, o.l, o.m))
      = [(1, 0, 0), (1, 0, 0), (2, 0, 0), (2, 0, 0), (2, 1, 0), (2, 1, 1)]
    ∧ ((getElectronConfiguration 6).getD 4 ⟨1, 0, 0, 1⟩).m
        ≠ ((getElectronConfiguration 6).getD 5 ⟨1, 0, 0, 1⟩).m := by
  constructor
  · decide
  · decide

/-- C6 counterexample: at Z = 31 (within the claimed range Z ≤ 92) the
configuration holds only 30 electrons, not 31: the filling table stops at
3d, so the claim fails as stated. -/
theorem c6_truncated_at_30_cex :
    (getElectronConfiguration 31).length = 30 ∧ (30 : ℕ) ≠ 31 := by
  constructor
  · decide
  · decide

/-- C5 counterexample: at Z = 21 the first 3d electron (index 20) receives
m = -2 from the ascending for-loop order, not the m = 0 demanded by the
claimed display order 0, +1, -1, +2, -2. -/
theorem c5_d_subshell_order_cex :
    ((getElectronConfiguration 21).getD 20 ⟨1, 0, 0, 1⟩).m = -2
    ∧ ((-2 : ℤ) ≠ 0) := by
  constructor
  · decide
  · decide

/-- C4 counterexample: doubling n at fixed Zeff doubles the step scale
instead of quadrupling it, so the step scale is not derived from
n²/Zeff. -/
theorem c4_step_scale_not_quadratic_cex :
    stepScaleU 2 1 = 3 ∧ stepScaleU 1 1 = 3 / 2
    ∧ stepScaleU 2 1 ≠ 4 * stepScaleU 1 1 := by
  refine ⟨by norm_num [stepScaleU], by norm_num [stepScaleU], ?_⟩
  norm_num [stepScaleU]

/-- C4 amended: in both samplers the step scale is 1.5·n/Zeff (with
sampleOrbitals replacing a zero Zeff by 1): linear in n for fixed Zeff,
not quadratic. -/
theorem c4_step_scale_linear_amended (n : ℕ) (Z : ℝ) :
    stepScaleU n Z = 1.5 * (n : ℝ) / Z
    ∧ stepScaleU (2 * n) Z = 2 * stepScaleU n Z
    ∧ (Z ≠ 0 → stepScaleSample n Z = stepScaleU n Z) := by
  refine ⟨by rw [stepScaleU]; ring, ?_, ?_⟩
  · rw [stepScaleU, stepScaleU]
    push_cast
    ring
  · intro hZ
    rw [stepScaleSample, stepScaleU, if_neg hZ]

/-- C4 amended, witnessed at n = 3, Zeff = 2. -/
theorem c4_step_scale_linear_amended_witness :
    stepScaleU 3 2 = 1.5 * ((3 : ℕ) : ℝ) / 2
    ∧ stepScaleU (2 * 3) 2 = 2 * stepScaleU 3 2
    ∧ ((2 : ℝ) ≠ 0 → stepScaleSample 3 2 = stepScaleU 3 2) := by
  have h := c4_step_scale_linear_amended 3 2
  exact ⟨h.1, h.2.1, h.2.2⟩

/-! ## Structure of the filling loop -/

theorem mValues_length (l : ℕ) : (mValues l).length = 2 * l + 1 := by
  rw [mValues]
  split
  · rename_i h; subst h; rfl
  · rw [List.length_map, List.length_range]

theorem mValues_nodup (l : ℕ) : (mValues l).Nodup := by
  rw [mValues]
  split
  · decide
  · refine List.Nodup.map ?_ (List.nodup_range (2 * l + 1))
    intro a b hab
    have h2 : (a : ℤ) - (l : ℤ) = (b : ℤ) - (l : ℤ) := hab
    omega

theorem spatialMs_length (l c : ℕ) : (spatialMs l c).length = c := by
  simp [spatialMs]

theorem spatialMs_take (l count : ℕ) :
    (spatialMs l count).take (min count (2 * l + 1))
      = (mValues l).take (min count (2 * l + 1)) := by
  apply List.ext_getElem
  · rw [List.length_take, List.length_take, spatialMs_length, mValues_length]
    omega
  · intro i h1 h2
    have hlen : i < min count (2 * l + 1) := by
      rw [List.length_take, spatialMs_length] at h1; omega
    simp only [List.getElem_take, spatialMs, List.getElem_map, List.getElem_range]
    have hmod : i % (2 * l + 1) = i := Nat.mod_eq_of_lt (by omega)
    rw [hmod]
    exact List.getD_eq_getElem _ _ (by rw [mValues_length]; omega)

theorem fillFrom_key_mem : ∀ (subs : List Subshell) (e : ℕ) (x : ℕ × ℕ × ℤ),
    x ∈ fillFrom e subs → (x.1, x.2.1) ∈ subs.map (fun s => (s.n, s.l)) := by
  intro subs
  induction subs with
  | nil => intro e x hx; simp [fillFrom] at hx
  | cons s rest ih =>
    intro e x hx
    simp only [fillFrom] at hx
    split at hx
    · simp at hx
    · rcases List.mem_append.mp hx with h | h
      · simp only [List.mem_map] at h
        obtain ⟨mv, _, rfl⟩ := h
        simp
      · exact List.mem_cons_of_mem _ (ih _ _ h)

theorem msOf_append (xs ys : List (ℕ × ℕ × ℤ)) (n l : ℕ) :
    msOf (xs ++ ys) n l = msOf xs n l ++ msOf ys n l := by
  simp [msOf]

theorem msOf_block_eq (s : Subshell) (cnt : ℕ) :
    msOf ((spatialMs s.l cnt).map fun mv => (s.n, s.l, mv)) s.n s.l
      = spatialMs s.l cnt := by
  simp [msOf, List.filter_map, Function.comp_def]

theorem msOf_block_ne (s : Subshell) (cnt n l : ℕ) (h : ¬(s.n = n ∧ s.l = l)) :
    msOf ((spatialMs s.l cnt).map fun mv => (s.n, s.l, mv)) n l = [] := by
  rw [msOf, List.filter_map]
  have hfalse : ((fun e : ℕ × ℕ × ℤ => e.1 == n && e.2.1 == l)
      ∘ fun mv : ℤ => (s.n, s.l, mv)) = fun _ => false := by
    funext mv
    rcases not_and_or.mp h with h1 | h1 <;>
      simp [Function.comp, beq_eq_false_iff_ne.mpr h1]
  rw [hfalse]
  simp

theorem msOf_tail_nil (subs : List Subshell) (e n l : ℕ)
    (h : (n, l) ∉ subs.map (fun s => (s.n, s.l))) :
    msOf (fillFrom e subs) n l = [] := by
  rw [msOf]
  have hf : (fillFrom e subs).filter (fun e' => e'.1 == n && e'.2.1 == l) = [] := by
    rw [List.filter_eq_nil_iff]
    intro x hx
    simp only [Bool.and_eq_true, beq_iff_eq, not_and]
    intro h1 h2
    apply h
    have hm := fillFrom_key_mem subs e x hx
    rw [h1, h2] at hm
    exact hm
  rw [hf]
  rfl

theorem msOf_fillFrom : ∀ (subs : List Subshell) (e n l : ℕ),
    (subs.map (fun s => (s.n, s.l))).Nodup →
    ∃ count, msOf (fillFrom e subs) n l = spatialMs l count := by
  intro subs
  induction subs with
  | nil =>
    intro e n l _
    exact ⟨0, by simp [fillFrom, msOf, spatialMs]⟩
  | cons s rest ih =>
    intro e n l hnd
    simp only [fillFrom]
    split
    · exact ⟨0, by simp [msOf, spatialMs]⟩
    · have hnd2 := List.nodup_cons.mp
        (show ((s.n, s.l) :: rest.map (fun s => (s.n, s.l))).Nodup from hnd)
      by_cases hkey : s.n = n ∧ s.l = l
      · obtain ⟨rfl, rfl⟩ := hkey
        refine ⟨min e s.cap, ?_⟩
        rw [msOf_append, msOf_block_eq, msOf_tail_nil rest _ _ _ hnd2.1,
          List.append_nil]
      · obtain ⟨cnt, hc⟩ := ih (e - min e s.cap) n l hnd2.2
        exact ⟨cnt, by rw [msOf_append, msOf_block_ne s _ n l hkey,
          List.nil_append, hc]⟩

theorem msOf_fillFrom_length : ∀ (subs : List Subshell) (e i : ℕ)
    (hi : i < subs.length),
    (subs.map (fun s => (s.n, s.l))).Nodup →
    (msOf (fillFrom e subs) (subs.get ⟨i, hi⟩).n (subs.get ⟨i, hi⟩).l).length
      = min (subs.get ⟨i, hi⟩).cap (e - capsBefore subs i) := by
  intro subs
  induction subs with
  | nil => intro e i hi; simp at hi
  | cons s rest ih =>
    intro e i hi hnd
    have hnd2 := List.nodup_cons.mp
        (show ((s.n, s.l) :: rest.map (fun s => (s.n, s.l))).Nodup from hnd)
    simp only [fillFrom]
    split
    · rename_i he
      simp only [msOf, List.filter_nil, List.map_nil, List.length_nil]
      omega
    · rename_i he
      cases i with
      | zero =>
        simp only [List.get]
        rw [msOf_append, msOf_block_eq, msOf_tail_nil rest _ _ _ hnd2.1,
          List.append_nil, spatialMs_length]
        simp only [capsBefore, List.take_zero, List.map_nil, List.sum_nil]
        omega
      | succ j =>
        have hj : j < rest.length := by simpa using hi
        have hkey : ¬(s.n = (rest.get ⟨j, hj⟩).n ∧ s.l = (rest.get ⟨j, hj⟩).l) := by
          intro ⟨h1, h2⟩
          apply hnd2.1
          have : ((rest.get ⟨j, hj⟩).n, (rest.get ⟨j, hj⟩).l)
              ∈ rest.map (fun s => (s.n, s.l)) :=
            List.mem_map_of_mem _ (List.get_mem _ _ _)
          rw [← h1, ← h2] at this
          exact this
        have hget : (s :: rest).get ⟨j + 1, hi⟩ = rest.get ⟨j, hj⟩ := rfl
        rw [hget, msOf_append, msOf_block_ne s _ _ _ hkey, List.nil_append,
          ih (e - min e s.cap) j hj hnd2.2]
        have hcb : capsBefore (s :: rest) (j + 1) = s.cap + capsBefore rest j := by
          simp [capsBefore]
        omega

theorem fillFrom_length : ∀ (subs : List Subshell) (e : ℕ),
    (fillFrom e subs).length = min e ((subs.map (fun s => s.cap)).sum) := by
  intro subs
  induction subs with
  | nil => intro e; simp [fillFrom]
  | cons s rest ih =>
    intro e
    simp only [fillFrom]
    split
    · rename_i he; subst he; simp
    · rw [List.length_append, List.length_map, spatialMs_length, ih]
      simp only [List.map_cons, List.sum_cons]
      omega

/-- C5 amended: within each subshell (n, l) the first min(k, 2l+1)
electrons receive pairwise distinct m values, taken in order from the
mValues display list; that list is 0, +1, -1 for p subshells, but for
every other l — including l = 2 — it is the ascending order -l, ..., +l,
not the claimed order 0, +1, -1, +2, -2. -/
theorem c5_m_assignment_amended (Z n l : ℕ) :
    (msOf (orbitalNLM Z) n l).take (min (msOf (orbitalNLM Z) n l).length (2 * l + 1))
        = (mValues l).take (min (msOf (orbitalNLM Z) n l).length (2 * l + 1))
    ∧ ((msOf (orbitalNLM Z) n l).take
        (min (msOf (orbitalNLM Z) n l).length (2 * l + 1))).Nodup
    ∧ mValues 0 = [0] ∧ mValues 1 = [0, 1, -1]
    ∧ mValues 2 = [-2, -1, 0, 1, 2] := by
  obtain ⟨cnt, hc⟩ := msOf_fillFrom subshells Z n l (by decide)
  have hms : msOf (orbitalNLM Z) n l = spatialMs l cnt := hc
  rw [hms, spatialMs_length]
  refine ⟨spatialMs_take l cnt, ?_, by decide, by decide, by decide⟩
  rw [spatialMs_take l cnt]
  exact List.Sublist.nodup (List.take_sublist _ _) (mValues_nodup l)

/-- C6 amended: the configuration fills the fixed 7-subshell prefix
1s, 2s, 2p, 3s, 3p, 4s, 3d of the Aufbau order (total capacity 30):
exactly Z electrons are allocated when Z ≤ 30 (min Z 30 in general, so
the configuration is truncated for Z > 30), each subshell receiving
min(cap, Z - capacity of the earlier subshells) electrons, which makes
every subshell before the last one full and only the last occupied
subshell partial. -/
theorem c6_aufbau_prefix_amended (Z : ℕ) :
    (getElectronConfiguration Z).length = min Z 30
    ∧ ∀ i, (hi : i < subshells.length) →
        (msOf (orbitalNLM Z) (subshells.get ⟨i, hi⟩).n
            (subshells.get ⟨i, hi⟩).l).length
          = min (subshells.get ⟨i, hi⟩).cap (Z - capsBefore subshells i) := by
  constructor
  · have h30 : ((subshells.map (fun s => s.cap)).sum) = 30 := by decide
    simp only [getElectronConfiguration, List.length_map, List.length_range,
      orbitalNLM]
    rw [fillFrom_length, h30]
  · intro i hi
    exact msOf_fillFrom_length subshells Z i hi (by decide)

/-! ## Slater screening -/

theorem range_filter_map_sum (f : ℕ → ℚ) (i : ℕ) : ∀ N : ℕ,
    (((List.range N).filter (fun j => j ≠ i)).map f).sum
      = ∑ j in (Finset.range N).erase i, f j := by
  intro N
  induction N with
  | zero => simp
  | succ N ih =>
    rw [List.range_succ, List.filter_append, List.map_append, List.sum_append, ih]
    by_cases hNi : N = i
    · subst hNi
      have h1 : ([N].filter (fun j => decide (j ≠ N))) = [] := by simp
      rw [h1, Finset.range_succ, Finset.erase_insert (by simp),
        Finset.erase_eq_of_not_mem (by simp)]
      simp
    · have h1 : ([N].filter (fun j => decide (j ≠ i))) = [N] := by simp [hNi]
      rw [h1, Finset.range_succ, Finset.erase_insert_of_ne hNi,
        Finset.sum_insert (by simp)]
      simp [add_comm]

theorem config_length (Z : ℕ) :
    (getElectronConfiguration Z).length = (orbitalNLM Z).length := by
  simp [getElectronConfiguration]

theorem config_get_Zeff (Z i : ℕ) (h : i < (getElectronConfiguration Z).length) :
    ((getElectronConfiguration Z).get ⟨i, h⟩).Zeff
      = max ((Z : ℚ) - screeningS ((orbitalNLM Z).map (fun e => e.1)) i) 0.1 := by
  simp [getElectronConfiguration, List.get_eq_getElem]

theorem config_get_n (Z i : ℕ) (h : i < (getElectronConfiguration Z).length) :
    ((getElectronConfiguration Z).get ⟨i, h⟩).n
      = ((orbitalNLM Z).map (fun e => e.1)).getD i 0 := by
  have hi : i < (orbitalNLM Z).length := by
    rw [← config_length]; exact h
  simp only [getElectronConfiguration, List.get_eq_getElem, List.getElem_map,
    List.getElem_range]
  rw [List.getD_eq_getElem _ _
    (show i < ((orbitalNLM Z).map (fun e => e.1)).length by simpa using hi)]
  rw [List.getElem_map]
  rw [List.getD_eq_getElem _ _ hi]

theorem config_getD_n (Z j : ℕ) (hj : j < (getElectronConfiguration Z).length) :
    ((getElectronConfiguration Z).getD j ⟨1, 0, 0, 1⟩).n
      = ((orbitalNLM Z).map (fun e => e.1)).getD j 0 := by
  have hj2 : j < (orbitalNLM Z).length := by
    rw [← config_length]; exact hj
  rw [List.getD_eq_getElem _ _ hj]
  simp only [getElectronConfiguration, List.getElem_map, List.getElem_range]
  rw [List.getD_eq_getElem _ _
    (show j < ((orbitalNLM Z).map (fun e => e.1)).length by simpa using hj2)]
  rw [List.getElem_map]
  rw [List.getD_eq_getElem _ _ hj2]

/-- C2: every electron of electronConfiguration(Z) carries
Zeff = max(Z - S, 0.1), where S sums the Slater contribution of every
other electron of the configuration (0.35 for the same principal number,
0.30 when the target electron sits in n = 1, 0.85 for n-1, 1.00 for n-2
and lower, 0 for higher shells). -/
theorem c2_zeff_slater (Z i : ℕ) (h : i < (getElectronConfiguration Z).length) :
    ((getElectronConfiguration Z).get ⟨i, h⟩).Zeff
      = max ((Z : ℚ) - ∑ j in
          (Finset.range (getElectronConfiguration Z).length).erase i,
            shieldContrib ((getElectronConfiguration Z).get ⟨i, h⟩).n
              ((getElectronConfiguration Z).getD j ⟨1, 0, 0, 1⟩).n) 0.1 := by
  have hN : ((orbitalNLM Z).map (fun e => e.1)).length
      = (getElectronConfiguration Z).length := by
    rw [config_length]; simp
  rw [config_get_Zeff Z i h]
  congr 1
  congr 1
  rw [screeningS, range_filter_map_sum, hN]
  apply Finset.sum_congr rfl
  intro j hj
  have hjN : j < (getElectronConfiguration Z).length := by
    have := Finset.mem_of_mem_erase hj
    simpa [Finset.mem_range] using this
  rw [config_get_n Z i h, config_getD_n Z j hjN]

/-- C2, witnessed at helium (Z = 2), electron 0. -/
theorem c2_zeff_slater_witness :
    ((getElectronConfiguration 2).get ⟨0, by decide⟩).Zeff
      = max ((2 : ℚ) - ∑ j in
          (Finset.range (getElectronConfiguration 2).length).erase 0,
            shieldContrib ((getElectronConfiguration 2).get ⟨0, by decide⟩).n
              ((getElectronConfiguration 2).getD j ⟨1, 0, 0, 1⟩).n) 0.1 :=
  c2_zeff_slater 2 0 (by decide)

/-- C6 amended, witnessed at Z = 12 and the 2p subshell (index 2). -/
theorem c6_aufbau_prefix_amended_witness :
    (msOf (orbitalNLM 12) (subshells.get ⟨2, by decide⟩).n
        (subshells.get ⟨2, by decide⟩).l).length
      = min (subshells.get ⟨2, by decide⟩).cap (12 - capsBefore subshells 2) :=
  (c6_aufbau_prefix_amended 12).2 2 (by decide)
